import Mathlib

/-!
Verification of the fluent-zpl token pipeline.

Text is modelled as `List Char` (a JS string is a sequence of code units);
byte buffers as `List Nat` (a `Uint8Array` is a sequence of bytes).

The tokenizer (`tokenizeZPL`, `findLastXZ` from `src/core/parse.ts`) and the
emitter (`emit` from `src/core/emit.ts`) are not present in the available
sources; only their tests and callers are.  Their definitions below are
modelled from the specification of the token pipeline (tokenizer algorithm,
emitter serialization rules, insertion-point query) and are checked against
the behaviour pinned down by the repository's test suites.

The splice engine (`Label._insertBeforeXZ`), the format wrapper
(`wrapPrinterConfigTokensInFormat`), the field-data escaper (`Label.escFD`)
and the text-field builder (`Label.text`) are translated directly from
`src/core/label.ts` and `src/core/printer-config.ts`.
-/

/-- Token: the lossless intermediate representation, from `src/_types.ts`:
`{k: Cmd, mark, name, params} | {k: FD, data} | {k: FS} | {k: Bytes, buf} | {k: Raw, text}`. -/
inductive Token where
  | Cmd (mark : Char) (name : List Char) (params : List Char)
  | FD (data : List Char)
  | FS
  | Bytes (buf : List Nat)
  | Raw (text : List Char)
deriving DecidableEq, Repr

/-- Modelled from the spec: the two mark characters that introduce every
command of the format (`^` standard, `~` the secondary command class). -/
def isMark (c : Char) : Bool := c = '^' || c = '~'

/-- Modelled from the spec: the fixed exception set of one-character
mnemonics consulted by the mnemonic grammar (only the font-selection
command `A` is evidenced by the round-trip tests). -/
def oneCharMnemonics : List Char := ['A']

/-- Modelled from the spec: `nameLength(markChar, lookahead) -> 1 | 2`;
command names are two characters by default, one character for the
mnemonics in the fixed exception set. -/
def nameLen (lookahead : List Char) : Nat :=
  match lookahead with
  | [] => 2
  | c :: _ => if c ∈ oneCharMnemonics then 1 else 2

/-- Modelled from the spec: field-data capture consumes bytes verbatim until
the exact literal sequence `^FS` is found; returns the data before the
terminator and the remaining input after it, or `none` in the
unterminated case. -/
def splitAtFS : List Char → Option (List Char × List Char)
  | [] => none
  | c :: cs =>
    if c = '^' ∧ cs.take 2 = ['F', 'S'] then some ([], cs.drop 2)
    else
      match splitAtFS cs with
      | none => none
      | some (d, r) => some (c :: d, r)

/-- A character that does not introduce a command. -/
def notMark (c : Char) : Bool := !(isMark c)

/-- The (possibly empty) RawText contribution of the maximal run of
non-mark characters at the front of the input: the run is skipped when
empty, otherwise emitted as a single RawText token. -/
def rawOf (input : List Char) : List Token :=
  if input.takeWhile notMark = [] then [] else [Token.Raw (input.takeWhile notMark)]

/-- Modelled from the spec: one fuelled pass of the tokenizer's
single left-to-right scan (missing `src/core/parse.ts`).  Each step:
a maximal run of non-mark characters becomes a RawText token; a mark
character starts a command whose name length the mnemonic grammar decides;
`^FD` switches to field-data capture; any other command takes all
characters up to the next mark (or end of input) as params. -/
def tokGo : Nat → List Char → List Token
  | 0, _ => []
  | fuel + 1, input =>
    match input.dropWhile notMark with
    | [] => rawOf input
    | mark :: afterMark =>
      if mark = '^' ∧ afterMark.take (nameLen afterMark) = ['F', 'D'] then
        match splitAtFS (afterMark.drop (nameLen afterMark)) with
        | some (d, r) => rawOf input ++ Token.FD d :: Token.FS :: tokGo fuel r
        | none => rawOf input ++ [Token.FD (afterMark.drop (nameLen afterMark))]
      else
        rawOf input ++ Token.Cmd mark (afterMark.take (nameLen afterMark))
            ((afterMark.drop (nameLen afterMark)).takeWhile notMark)
          :: tokGo fuel ((afterMark.drop (nameLen afterMark)).dropWhile notMark)

/-- Modelled from the spec: `tokenize(input) -> ordered sequence of Token`
for text input (missing `src/core/parse.ts`); the scan consumes at least one
character per emitted command, so `input.length` steps of fuel suffice. -/
def tokenizeZPL (input : List Char) : List Token :=
  tokGo input.length input

/-- Modelled from the spec: serialization of one token (missing
`src/core/emit.ts`): Command is `mark + name + params`; FieldData is the
field-data mnemonic with the primary mark plus the data; FieldSeparator is
`^FS`; ByteRun is the raw bytes unchanged; RawText is the text unchanged. -/
def emitTok : Token → List Char
  | Token.Cmd mark name params => mark :: (name ++ params)
  | Token.FD data => '^' :: 'F' :: 'D' :: data
  | Token.FS => ['^', 'F', 'S']
  | Token.Bytes buf => buf.map Char.ofNat
  | Token.Raw text => text

/-- Modelled from the spec: `emit(tokens) -> text`, the concatenation of the
per-token serializations in input order (missing `src/core/emit.ts`). -/
def emit : List Token → List Char
  | [] => []
  | t :: ts => emitTok t ++ emit ts

/-- Is this token a Command with the primary mark `^` and name `XZ`? -/
def isXZ : Token → Bool
  | Token.Cmd mark name _ => mark = '^' && name = ['X', 'Z']
  | _ => false

/-- Modelled from the spec: index of the last `^XZ` command, if any
(helper for the insertion-point query of missing `src/core/parse.ts`). -/
def lastXZIdx : List Token → Option Nat
  | [] => none
  | t :: ts =>
    match lastXZIdx ts with
    | some i => some (i + 1)
    | none => if isXZ t then some 0 else none

/-- Modelled from the spec: the insertion-point query (missing
`src/core/parse.ts`): the index of the last Command token with primary mark
and name `XZ`, or the sequence length when none exists. -/
def findLastXZ (ts : List Token) : Nat :=
  (lastXZIdx ts).getD ts.length

/-- `Label._insertBeforeXZ` from `src/core/label.ts`: insert a token chunk
immediately before the last `^XZ` in the stream. -/
def splice (doc frag : List Token) : List Token :=
  let idx := findLastXZ doc
  doc.take idx ++ frag ++ doc.drop idx

/-- `tokenize` for byte input.  Modelled from the spec: when the input is a
byte sequence and cannot be validly interpreted as text it is preserved as a
ByteRun token instead of being decoded; otherwise it is decoded and
tokenized as text (the granularity of the undecodable span is unspecified,
so the whole input is taken as the span). -/
def tokenizeBytes (buf : List Nat) : List Token :=
  if buf.all (fun b => b < 128) then tokenizeZPL (buf.map Char.ofNat)
  else [Token.Bytes buf]

/-- Re-encode emitter output as bytes, for comparing byte inputs. -/
def emitBytes (ts : List Token) : List Nat :=
  (emit ts).map Char.toNat

/-- Decides the pairing invariant: every FieldData token is immediately
followed by a FieldSeparator token, except possibly a final FieldData. -/
def fdPaired : List Token → Bool
  | [] => true
  | [Token.FD _] => true
  | Token.FD _ :: Token.FS :: rest => fdPaired rest
  | Token.FD _ :: _ :: _ => false
  | _ :: rest => fdPaired rest


/-- The `alreadyWrapped` test of `wrapPrinterConfigTokensInFormat` in
`src/core/printer-config.ts`: `first.k === 'Cmd' && first.name === 'XA' &&
last.k === 'Cmd' && last.name === 'XZ'` (note: marks are not inspected). -/
def isCmdNamed (nm : List Char) : Token → Bool
  | Token.Cmd _ name _ => name = nm
  | _ => false

/-- The wrapped-check on a token sequence: first token a Command named
`XA` and last token a Command named `XZ`. -/
def alreadyWrapped (tokens : List Token) : Bool :=
  match tokens.head?, tokens.getLast? with
  | some first, some last => isCmdNamed ['X', 'A'] first && isCmdNamed ['X', 'Z'] last
  | _, _ => false

/-- `wrapPrinterConfigTokensInFormat` from `src/core/printer-config.ts`:
empty input is returned as is; already wrapped input is returned as is;
otherwise the result is `tokenizeZPL('^XA' + emit(tokens) + '^XZ')`. -/
def wrapPrinterConfigTokensInFormat (tokens : List Token) : List Token :=
  if tokens = [] then tokens
  else if alreadyWrapped tokens then tokens
  else tokenizeZPL ('^' :: 'X' :: 'A' :: emit tokens ++ ['^', 'X', 'Z'])


/-- Modelled from the spec: in the host language a token is a record with an
open string tag `k`, so the emitter's per-variant switch needs a defensive
default case for token shapes outside the five known variants (missing
`src/core/emit.ts`).  Absent fields are the neutral values. -/
structure JSToken where
  k : List Char
  mark : Char
  name : List Char
  params : List Char
  data : List Char
  buf : List Nat
  text : List Char

/-- Modelled from the spec: the emitter's switch over the open tag, with the
default case contributing the empty string (missing `src/core/emit.ts`). -/
def emitJSTok (t : JSToken) : List Char :=
  if t.k = "Cmd".toList then t.mark :: (t.name ++ t.params)
  else if t.k = "FD".toList then '^' :: 'F' :: 'D' :: t.data
  else if t.k = "FS".toList then ['^', 'F', 'S']
  else if t.k = "Bytes".toList then t.buf.map Char.ofNat
  else if t.k = "Raw".toList then t.text
  else []

/-- The open-tag emitter over a token sequence. -/
def emitJS : List JSToken → List Char
  | [] => []
  | t :: ts => emitJSTok t ++ emitJS ts

/-- The five known variants embed into the open representation. -/
def Token.toJS : Token → JSToken
  | Token.Cmd m n p => ⟨"Cmd".toList, m, n, p, [], [], []⟩
  | Token.FD d => ⟨"FD".toList, ' ', [], [], d, [], []⟩
  | Token.FS => ⟨"FS".toList, ' ', [], [], [], [], []⟩
  | Token.Bytes b => ⟨"Bytes".toList, ' ', [], [], [], b, []⟩
  | Token.Raw t => ⟨"Raw".toList, ' ', [], [], [], [], t⟩


/-- Decimal digits of a number, as the host language's template
interpolation prints it. -/
def natChars (n : Nat) : List Char := Nat.toDigits 10 n

/-- `clamp1` from `src/core/label.ts`: `Math.max(1, Math.round(n))`
(rounding is the identity on integers). -/
def clamp1 (n : Nat) : Nat := max 1 n

/-- `Label.escFD` from `src/core/label.ts`: replace every `^` in the
payload by `^^` (`String(s).replace(/\^/g, '^^')`). -/
def escFD : List Char → List Char
  | [] => []
  | c :: cs => if c = '^' then '^' :: '^' :: escFD cs else c :: escFD cs

/-- The fragment text built by `Label.text` (`src/core/label.ts`) in dot
units with no wrap block and no hex indicator:
`^FO{x},{y}` + `^A{fam}{rot},{h},{w}` + `^FD{escFD(text)}^FS`. -/
def textChunk (x y : Nat) (fam rot : Char) (h w : Nat) (s : List Char) : List Char :=
  ('^' :: 'F' :: 'O' :: natChars x) ++ (',' :: natChars y)
    ++ ('^' :: 'A' :: fam :: rot :: ',' :: natChars (clamp1 h)) ++ (',' :: natChars (clamp1 w))
    ++ ('^' :: 'F' :: 'D' :: escFD s) ++ ['^', 'F', 'S']

/-- `Label.text` from `src/core/label.ts`: build the fragment text,
tokenize it, and insert it before the last `^XZ`
(`this._insertBeforeXZ(tokenizeZPL(parts.join('')))`). -/
def labelText (doc : List Token) (x y : Nat) (fam rot : Char) (h w : Nat)
    (s : List Char) : List Token :=
  splice doc (tokenizeZPL (textChunk x y fam rot h w s))


-- Concrete checks against the repository's parse/emit test suites.
example : tokenizeZPL "^XA".toList = [Token.Cmd '^' ['X', 'A'] []] := by decide
example : tokenizeZPL "^LL600".toList = [Token.Cmd '^' ['L', 'L'] ['6', '0', '0']] := by decide
example : tokenizeZPL "^FDHello World^FS".toList =
    [Token.FD "Hello World".toList, Token.FS] := by decide
example : tokenizeZPL "^FD^FS".toList = [Token.FD [], Token.FS] := by decide
example : tokenizeZPL "^FDUnterminated".toList = [Token.FD "Unterminated".toList] := by decide
example : tokenizeZPL "~DGR:LOGO.GRF,100,10,ABC".toList =
    [Token.Cmd '~' ['D', 'G'] "R:LOGO.GRF,100,10,ABC".toList] := by decide
example : tokenizeZPL "^XA~DGR:LOGO.GRF,10,1,FF^XZ".toList =
    [Token.Cmd '^' ['X', 'A'] [], Token.Cmd '~' ['D', 'G'] "R:LOGO.GRF,10,1,FF".toList,
      Token.Cmd '^' ['X', 'Z'] []] := by decide
example : tokenizeZPL "No commands here".toList = [Token.Raw "No commands here".toList] := by decide
example : tokenizeZPL [] = [] := by decide
example : emit [Token.Cmd '^' ['X', 'A'] [], Token.Cmd '^' ['X', 'Z'] []] = "^XA^XZ".toList := by
  decide
example : findLastXZ [Token.Cmd '^' ['X', 'A'] [], Token.Cmd '^' ['L', 'L'] ['6'],
    Token.Cmd '^' ['X', 'Z'] []] = 2 := by decide
example : findLastXZ [] = 0 := by decide
example : findLastXZ [Token.Cmd '~' ['X', 'Z'] [], Token.Cmd '^' ['X', 'A'] [],
    Token.Cmd '^' ['X', 'Z'] []] = 2 := by decide

/-! ### Helper lemmas about the tokenizer and emitter -/

theorem emit_append (a b : List Token) : emit (a ++ b) = emit a ++ emit b := by
  induction a with
  | nil => simp [emit]
  | cons t ts ih => simp [emit, ih]

theorem emit_rawOf_append (input : List Char) (l : List Token) :
    emit (rawOf input ++ l) = input.takeWhile notMark ++ emit l := by
  rw [rawOf]
  by_cases h : input.takeWhile notMark = []
  · simp [h, emit]
  · simp [h, emit, emitTok]

theorem emit_rawOf (input : List Char) :
    emit (rawOf input) = input.takeWhile notMark := by
  have := emit_rawOf_append input []
  simpa [emit] using this

theorem splitAtFS_eq :
    ∀ (l d r : List Char), splitAtFS l = some (d, r) → l = d ++ '^' :: 'F' :: 'S' :: r := by
  intro l
  induction l with
  | nil => intro d r h; simp [splitAtFS] at h
  | cons c cs ih =>
    intro d r h
    by_cases hc : c = '^' ∧ cs.take 2 = ['F', 'S']
    · rw [splitAtFS, if_pos hc] at h
      obtain ⟨hc1, hc2⟩ := hc
      simp only [Option.some.injEq, Prod.mk.injEq] at h
      obtain ⟨hd, hr⟩ := h
      subst hd hr hc1
      have hcs : cs = 'F' :: 'S' :: cs.drop 2 := by
        conv_lhs => rw [← List.take_append_drop 2 cs]
        rw [hc2]
        rfl
      simpa using hcs
    · rw [splitAtFS, if_neg hc] at h
      cases hsub : splitAtFS cs with
      | none => rw [hsub] at h; simp at h
      | some dr =>
        obtain ⟨d1, r1⟩ := dr
        rw [hsub] at h
        simp only [Option.some.injEq, Prod.mk.injEq] at h
        obtain ⟨hd, hr⟩ := h
        subst hd hr
        have := ih d1 r1 hsub
        simp [this]

-- Conditional unfolding equations for one tokenizer step.

theorem tokGo_succ_raw (fuel : Nat) (input : List Char)
    (h : input.dropWhile notMark = []) :
    tokGo (fuel + 1) input = rawOf input := by
  rw [tokGo, h]

theorem tokGo_succ_fd (fuel : Nat) (input afterMark d r : List Char)
    (h : input.dropWhile notMark = '^' :: afterMark)
    (hn : afterMark.take (nameLen afterMark) = ['F', 'D'])
    (hs : splitAtFS (afterMark.drop (nameLen afterMark)) = some (d, r)) :
    tokGo (fuel + 1) input = rawOf input ++ Token.FD d :: Token.FS :: tokGo fuel r := by
  rw [tokGo, h]
  simp only [hn, hs, and_self, if_true, reduceIte]

theorem tokGo_succ_fd_unterminated (fuel : Nat) (input afterMark : List Char)
    (h : input.dropWhile notMark = '^' :: afterMark)
    (hn : afterMark.take (nameLen afterMark) = ['F', 'D'])
    (hs : splitAtFS (afterMark.drop (nameLen afterMark)) = none) :
    tokGo (fuel + 1) input = rawOf input ++ [Token.FD (afterMark.drop (nameLen afterMark))] := by
  rw [tokGo, h]
  simp only [hn, hs, and_self, if_true, reduceIte]

theorem tokGo_succ_cmd (fuel : Nat) (input : List Char) (mark : Char) (afterMark : List Char)
    (h : input.dropWhile notMark = mark :: afterMark)
    (hn : ¬(mark = '^' ∧ afterMark.take (nameLen afterMark) = ['F', 'D'])) :
    tokGo (fuel + 1) input =
      rawOf input ++ Token.Cmd mark (afterMark.take (nameLen afterMark))
          ((afterMark.drop (nameLen afterMark)).takeWhile notMark)
        :: tokGo fuel ((afterMark.drop (nameLen afterMark)).dropWhile notMark) := by
  rw [tokGo, h]
  simp only [hn, if_false, reduceIte]

theorem length_dropWhile_le (p : Char → Bool) (l : List Char) :
    (l.dropWhile p).length ≤ l.length := by
  have h := congrArg List.length (List.takeWhile_append_dropWhile p l)
  simp only [List.length_append] at h
  omega

/-- The central round-trip lemma: with enough fuel, emitting the tokenizer's
output restores the input text byte for byte. -/
theorem emit_tokGo :
    ∀ (fuel : Nat) (input : List Char), input.length ≤ fuel →
      emit (tokGo fuel input) = input := by
  intro fuel
  induction fuel with
  | zero =>
    intro input h
    have : input = [] := List.eq_nil_of_length_eq_zero (Nat.le_zero.mp h)
    subst this
    rfl
  | succ fuel ih =>
    intro input h
    have hsplit := List.takeWhile_append_dropWhile notMark input
    cases hrest : input.dropWhile notMark with
    | nil =>
      rw [tokGo_succ_raw fuel input hrest, emit_rawOf]
      rw [hrest] at hsplit
      simpa using hsplit
    | cons mark afterMark =>
      rw [hrest] at hsplit
      have hlen : input.length = (input.takeWhile notMark).length + 1 + afterMark.length := by
        have := congrArg List.length hsplit
        simp only [List.length_append, List.length_cons] at this
        omega
      by_cases hfd : mark = '^' ∧ afterMark.take (nameLen afterMark) = ['F', 'D']
      · obtain ⟨hm, hname⟩ := hfd
        subst hm
        cases hfs : splitAtFS (afterMark.drop (nameLen afterMark)) with
        | some dr =>
          obtain ⟨d, r⟩ := dr
          have hdr := splitAtFS_eq _ _ _ hfs
          have hrlen : r.length ≤ fuel := by
            have h1 := congrArg List.length hdr
            have h2 : (afterMark.drop (nameLen afterMark)).length ≤ afterMark.length := by
              simp [List.length_drop]
            simp only [List.length_append, List.length_cons] at h1
            omega
          rw [tokGo_succ_fd fuel input afterMark d r hrest hname hfs]
          rw [emit_rawOf_append]
          simp only [emit, emitTok, ih r hrlen]
          conv_rhs => rw [← hsplit]
          have hAfter : afterMark = 'F' :: 'D' :: (d ++ '^' :: 'F' :: 'S' :: r) := by
            conv_lhs => rw [← List.take_append_drop (nameLen afterMark) afterMark]
            rw [hname, hdr]
            rfl
          conv_rhs => rw [hAfter]
          simp
        | none =>
          rw [tokGo_succ_fd_unterminated fuel input afterMark hrest hname hfs]
          rw [emit_rawOf_append]
          simp only [emit, emitTok, List.append_nil]
          conv_rhs => rw [← hsplit]
          have hAfter : afterMark = 'F' :: 'D' :: afterMark.drop (nameLen afterMark) := by
            conv_lhs => rw [← List.take_append_drop (nameLen afterMark) afterMark]
            rw [hname]
            rfl
          conv_rhs => rw [hAfter]
      · rw [tokGo_succ_cmd fuel input mark afterMark hrest hfd]
        have hrlen : ((afterMark.drop (nameLen afterMark)).dropWhile notMark).length ≤ fuel := by
          have h2 := length_dropWhile_le notMark (afterMark.drop (nameLen afterMark))
          have h3 : (afterMark.drop (nameLen afterMark)).length ≤ afterMark.length := by
            simp [List.length_drop]
          omega
        rw [emit_rawOf_append]
        simp only [emit, emitTok, ih _ hrlen]
        conv_rhs => rw [← hsplit]
        have hAfter : afterMark = afterMark.take (nameLen afterMark)
            ++ ((afterMark.drop (nameLen afterMark)).takeWhile notMark
              ++ (afterMark.drop (nameLen afterMark)).dropWhile notMark) := by
          rw [List.takeWhile_append_dropWhile, List.take_append_drop]
        conv_rhs => rw [hAfter]
        simp

theorem toNat_ofNat_byte (b : Nat) (hb : b < 55296) : (Char.ofNat b).toNat = b := by
  have hv : Nat.isValidChar b := Or.inl hb
  rw [Char.ofNat, dif_pos hv]
  rfl

theorem map_toNat_map_ofNat (buf : List Nat) (hb : ∀ b ∈ buf, b < 256) :
    (buf.map Char.ofNat).map Char.toNat = buf := by
  rw [List.map_map]
  have : ∀ b ∈ buf, (Char.toNat ∘ Char.ofNat) b = id b := by
    intro b hbmem
    exact toNat_ofNat_byte b (lt_trans (hb b hbmem) (by norm_num))
  rw [List.map_congr_left this, List.map_id]

/-! ### C1: round-trip law -/

/-- C1: for every text or byte input `x`, emitting the token sequence
produced by tokenizing `x` reproduces `x` exactly; the tokenizer never
rejects input (byte inputs are `Nat` lists whose entries are bytes,
i.e. below 256). -/
theorem spec_C1_roundTrip :
    (∀ input : List Char, emit (tokenizeZPL input) = input) ∧
    (∀ buf : List Nat, (∀ b ∈ buf, b < 256) → emitBytes (tokenizeBytes buf) = buf) := by
  constructor
  · intro input
    exact emit_tokGo input.length input (le_refl _)
  · intro buf hb
    rw [tokenizeBytes]
    by_cases hall : buf.all (fun b => b < 128)
    · rw [if_pos hall, emitBytes, tokenizeZPL,
        emit_tokGo (buf.map Char.ofNat).length (buf.map Char.ofNat) (le_refl _)]
      exact map_toNat_map_ofNat buf hb
    · rw [if_neg hall, emitBytes]
      show (emitTok (Token.Bytes buf) ++ emit []).map Char.toNat = buf
      rw [emit, emitTok, List.append_nil]
      exact map_toNat_map_ofNat buf hb

/-- Witness for C1 at the test suite's round-trip string and at the byte
sequence for `^XA`. -/
theorem spec_C1_witness :
    emit (tokenizeZPL "^XA^FO50,100^A0N,28,28^FDOriginal Text^FS^XZ".toList)
        = "^XA^FO50,100^A0N,28,28^FDOriginal Text^FS^XZ".toList ∧
    emitBytes (tokenizeBytes [94, 88, 65]) = [94, 88, 65] :=
  ⟨spec_C1_roundTrip.1 _, spec_C1_roundTrip.2 [94, 88, 65] (by decide)⟩

/-! ### C4: FieldData/FieldSeparator pairing -/

theorem fdPaired_raw (r : List Char) (l : List Token) :
    fdPaired (Token.Raw r :: l) = fdPaired l := rfl

theorem fdPaired_cmd (m : Char) (n p : List Char) (l : List Token) :
    fdPaired (Token.Cmd m n p :: l) = fdPaired l := rfl

theorem fdPaired_fd_fs (d : List Char) (l : List Token) :
    fdPaired (Token.FD d :: Token.FS :: l) = fdPaired l := rfl

theorem fdPaired_rawOf_append (input : List Char) (l : List Token) :
    fdPaired (rawOf input ++ l) = fdPaired l := by
  rw [rawOf]
  by_cases h : input.takeWhile notMark = []
  · rw [if_pos h, List.nil_append]
  · rw [if_neg h, List.cons_append, List.nil_append, fdPaired_raw]

theorem fdPaired_tokGo : ∀ (fuel : Nat) (input : List Char), fdPaired (tokGo fuel input) = true := by
  intro fuel
  induction fuel with
  | zero => intro input; rfl
  | succ fuel ih =>
    intro input
    cases hrest : input.dropWhile notMark with
    | nil =>
      rw [tokGo_succ_raw fuel input hrest, rawOf]
      by_cases h : input.takeWhile notMark = []
      · rw [if_pos h]; rfl
      · rw [if_neg h]; rfl
    | cons mark afterMark =>
      by_cases hfd : mark = '^' ∧ afterMark.take (nameLen afterMark) = ['F', 'D']
      · obtain ⟨hm, hn⟩ := hfd
        subst hm
        cases hfs : splitAtFS (afterMark.drop (nameLen afterMark)) with
        | some dr =>
          obtain ⟨d, r⟩ := dr
          rw [tokGo_succ_fd fuel input afterMark d r hrest hn hfs, fdPaired_rawOf_append,
            fdPaired_fd_fs]
          exact ih r
        | none =>
          rw [tokGo_succ_fd_unterminated fuel input afterMark hrest hn hfs,
            fdPaired_rawOf_append]
          rfl
      · rw [tokGo_succ_cmd fuel input mark afterMark hrest hfd, fdPaired_rawOf_append,
          fdPaired_cmd]
        exact ih _

/-- C4: in any tokenizer output every FieldData token is immediately
followed by a FieldSeparator, except possibly a final FieldData
(the unterminated case, where a single FieldData token holds all remaining
bytes and no FieldSeparator is emitted). -/
theorem spec_C4_pairing :
    (∀ input : List Char, fdPaired (tokenizeZPL input) = true) ∧
    tokenizeZPL "^FDUnterminated".toList = [Token.FD "Unterminated".toList] :=
  ⟨fun input => fdPaired_tokGo input.length input, by decide⟩

/-! ### C5: mnemonic-width exception -/

/-- C5: `^A0N,28,28` tokenizes to a single Command with one-character name
`A` and params beginning with the designator `0`; `^BCN,100,Y,N,N`
tokenizes to a single Command with two-character name `BC` and params
beginning with the sub-parameter `N`. -/
theorem spec_C5_mnemonicWidth :
    tokenizeZPL "^A0N,28,28".toList = [Token.Cmd '^' ['A'] "0N,28,28".toList] ∧
    tokenizeZPL "^BCN,100,Y,N,N".toList = [Token.Cmd '^' ['B', 'C'] "N,100,Y,N,N".toList] :=
  ⟨by decide, by decide⟩

/-! ### C9: maximal raw runs and params up to the next mark -/

theorem tokGo_fuel :
    ∀ (f g : Nat) (input : List Char), input.length ≤ f → input.length ≤ g →
      tokGo f input = tokGo g input := by
  intro f
  induction f with
  | zero =>
    intro g input hf hg
    have hnil : input = [] := List.eq_nil_of_length_eq_zero (Nat.le_zero.mp hf)
    subst hnil
    cases g with
    | zero => rfl
    | succ g => rw [tokGo_succ_raw g [] rfl]; rfl
  | succ f ihf =>
    intro g input hf hg
    cases g with
    | zero =>
      have hnil : input = [] := List.eq_nil_of_length_eq_zero (Nat.le_zero.mp hg)
      subst hnil
      rw [tokGo_succ_raw f [] rfl]
      rfl
    | succ g =>
      cases hrest : input.dropWhile notMark with
      | nil => rw [tokGo_succ_raw f input hrest, tokGo_succ_raw g input hrest]
      | cons mark afterMark =>
        have hsplit := List.takeWhile_append_dropWhile notMark input
        rw [hrest] at hsplit
        have hlen : input.length = (input.takeWhile notMark).length + 1 + afterMark.length := by
          have := congrArg List.length hsplit
          simp only [List.length_append, List.length_cons] at this
          omega
        by_cases hfd : mark = '^' ∧ afterMark.take (nameLen afterMark) = ['F', 'D']
        · obtain ⟨hm, hn⟩ := hfd
          subst hm
          cases hfs : splitAtFS (afterMark.drop (nameLen afterMark)) with
          | some dr =>
            obtain ⟨d, r⟩ := dr
            have hdr := splitAtFS_eq _ _ _ hfs
            have hr : r.length + 1 ≤ afterMark.length := by
              have h1 := congrArg List.length hdr
              have h2 : (afterMark.drop (nameLen afterMark)).length ≤ afterMark.length := by
                simp [List.length_drop]
              simp only [List.length_append, List.length_cons] at h1
              omega
            rw [tokGo_succ_fd f input afterMark d r hrest hn hfs,
              tokGo_succ_fd g input afterMark d r hrest hn hfs,
              ihf g r (by omega) (by omega)]
          | none =>
            rw [tokGo_succ_fd_unterminated f input afterMark hrest hn hfs,
              tokGo_succ_fd_unterminated g input afterMark hrest hn hfs]
        · have hr : ((afterMark.drop (nameLen afterMark)).dropWhile notMark).length
              ≤ afterMark.length := by
            have h2 := length_dropWhile_le notMark (afterMark.drop (nameLen afterMark))
            have h3 : (afterMark.drop (nameLen afterMark)).length ≤ afterMark.length := by
              simp [List.length_drop]
            omega
          rw [tokGo_succ_cmd f input mark afterMark hrest hfd,
            tokGo_succ_cmd g input mark afterMark hrest hfd,
            ihf g _ (by omega) (by omega)]

theorem takeWhile_append_all {p : Char → Bool} {r : List Char} (rest : List Char)
    (h : ∀ c ∈ r, p c = true) :
    (r ++ rest).takeWhile p = r ++ rest.takeWhile p := by
  induction r with
  | nil => simp
  | cons c cs ih =>
    have hc : p c = true := h c (by simp)
    simp only [List.cons_append, List.takeWhile_cons, hc, if_true, reduceIte]
    rw [ih (fun x hx => h x (by simp [hx]))]

theorem dropWhile_append_all {p : Char → Bool} {r : List Char} (rest : List Char)
    (h : ∀ c ∈ r, p c = true) :
    (r ++ rest).dropWhile p = rest.dropWhile p := by
  induction r with
  | nil => simp
  | cons c cs ih =>
    have hc : p c = true := h c (by simp)
    simp only [List.cons_append, List.dropWhile_cons, hc, if_true, reduceIte]
    exact ih (fun x hx => h x (by simp [hx]))

theorem notMark_eq_false {c : Char} (hc : isMark c = true) : notMark c = false := by
  rw [notMark, hc]
  rfl

theorem tokenizeZPL_raw_prepend (r rest : List Char) (hr : r ≠ [])
    (hall : ∀ c ∈ r, notMark c = true)
    (hhead : ∀ c cs, rest = c :: cs → isMark c = true) :
    tokenizeZPL (r ++ rest) = Token.Raw r :: tokenizeZPL rest := by
  cases rest with
  | nil =>
    rw [List.append_nil]
    have hdrop : r.dropWhile notMark = [] := by
      have := dropWhile_append_all (p := notMark) (r := r) [] hall
      simpa using this
    have htake : r.takeWhile notMark = r := by
      have := takeWhile_append_all (p := notMark) (r := r) [] hall
      simpa using this
    obtain ⟨k, hk⟩ : ∃ k, r.length = k + 1 := by
      cases r with
      | nil => exact absurd rfl hr
      | cons a as => exact ⟨as.length, by simp⟩
    rw [tokenizeZPL, hk, tokGo_succ_raw k r hdrop, rawOf, htake, if_neg hr]
    rfl
  | cons c cs =>
    have hc : isMark c = true := hhead c cs rfl
    have hcnm : notMark c = false := notMark_eq_false hc
    have hdrop : (r ++ c :: cs).dropWhile notMark = c :: cs := by
      rw [dropWhile_append_all _ hall, List.dropWhile_cons, hcnm]
      simp
    have htake : (r ++ c :: cs).takeWhile notMark = r := by
      rw [takeWhile_append_all _ hall, List.takeWhile_cons, hcnm]
      simp
    have hdrop2 : (c :: cs).dropWhile notMark = c :: cs := by
      rw [List.dropWhile_cons, hcnm]
      simp
    have htake2 : (c :: cs).takeWhile notMark = [] := by
      rw [List.takeWhile_cons, hcnm]
      simp
    obtain ⟨k, hk⟩ : ∃ k, (r ++ c :: cs).length = k + 1 :=
      ⟨r.length + cs.length, by simp; omega⟩
    have hk' : cs.length ≤ k := by
      have := congrArg List.length (rfl : r ++ c :: cs = r ++ c :: cs)
      simp only [List.length_append, List.length_cons] at hk
      omega
    by_cases hfd : c = '^' ∧ cs.take (nameLen cs) = ['F', 'D']
    · obtain ⟨hm, hn⟩ := hfd
      subst hm
      cases hfs : splitAtFS (cs.drop (nameLen cs)) with
      | some dr =>
        obtain ⟨d, rr⟩ := dr
        have hdr := splitAtFS_eq _ _ _ hfs
        have hrr : rr.length ≤ cs.length := by
          have h1 := congrArg List.length hdr
          have h2 : (cs.drop (nameLen cs)).length ≤ cs.length := by
            simp [List.length_drop]
          simp only [List.length_append, List.length_cons] at h1
          omega
        rw [tokenizeZPL, hk, tokGo_succ_fd k _ cs d rr hdrop hn hfs,
          rawOf, htake, if_neg hr]
        rw [tokenizeZPL, List.length_cons, tokGo_succ_fd cs.length _ cs d rr hdrop2 hn hfs,
          rawOf, htake2, if_pos rfl]
        rw [tokGo_fuel k cs.length rr (by omega) hrr]
        rfl
      | none =>
        rw [tokenizeZPL, hk, tokGo_succ_fd_unterminated k _ cs hdrop hn hfs,
          rawOf, htake, if_neg hr]
        rw [tokenizeZPL, List.length_cons, tokGo_succ_fd_unterminated cs.length _ cs hdrop2 hn hfs,
          rawOf, htake2, if_pos rfl]
        rfl
    · have hx : ((cs.drop (nameLen cs)).dropWhile notMark).length ≤ cs.length := by
        have h2 := length_dropWhile_le notMark (cs.drop (nameLen cs))
        have h3 : (cs.drop (nameLen cs)).length ≤ cs.length := by
          simp [List.length_drop]
        omega
      rw [tokenizeZPL, hk, tokGo_succ_cmd k _ c cs hdrop hfd,
        rawOf, htake, if_neg hr]
      rw [tokenizeZPL, List.length_cons, tokGo_succ_cmd cs.length _ c cs hdrop2 hfd,
        rawOf, htake2, if_pos rfl]
      rw [tokGo_fuel k cs.length _ (by omega) hx]
      rfl

/-- C9: outside field-data capture a maximal run of non-mark characters is
emitted as a single RawText token (prepending such a run to any input whose
first character, if any, is a mark character prepends exactly one RawText
token), and a command's params run to the next mark character or end of
input — as on the test input `Some raw text^XAMore text^XZ`. -/
theorem spec_C9_rawRunAndParams :
    (∀ r rest : List Char, r ≠ [] → (∀ c ∈ r, notMark c = true) →
      (∀ c cs, rest = c :: cs → isMark c = true) →
      tokenizeZPL (r ++ rest) = Token.Raw r :: tokenizeZPL rest) ∧
    tokenizeZPL "Some raw text^XAMore text^XZ".toList =
      [Token.Raw "Some raw text".toList, Token.Cmd '^' ['X', 'A'] "More text".toList,
        Token.Cmd '^' ['X', 'Z'] []] :=
  ⟨tokenizeZPL_raw_prepend, by decide⟩

/-- Witness for C9: prepending the non-mark run `abc` to `^XA` yields a
RawText token followed by the tokens of `^XA`. -/
theorem spec_C9_witness :
    tokenizeZPL ("abc".toList ++ "^XA".toList) = Token.Raw "abc".toList :: tokenizeZPL "^XA".toList :=
  spec_C9_rawRunAndParams.1 "abc".toList "^XA".toList (by decide) (by decide)
    (by
      intro c cs h
      injection h with h1 h2
      subst h1
      rfl)

/-! ### C3: the insertion-point query -/

theorem lastXZIdx_none :
    ∀ (ts : List Token), lastXZIdx ts = none →
      ∀ i (h : i < ts.length), isXZ (ts.get ⟨i, h⟩) = false := by
  intro ts
  induction ts with
  | nil => intro _ i h; exact absurd h (Nat.not_lt_zero i)
  | cons t ts ih =>
    intro hnone i h
    cases hsub : lastXZIdx ts with
    | some j => rw [lastXZIdx, hsub] at hnone; simp at hnone
    | none =>
      rw [lastXZIdx, hsub] at hnone
      cases ht : isXZ t with
      | true => rw [ht] at hnone; simp at hnone
      | false =>
        cases i with
        | zero => exact ht
        | succ i => exact ih hsub i (Nat.lt_of_succ_lt_succ h)

theorem lastXZIdx_some :
    ∀ (ts : List Token) (i : Nat), lastXZIdx ts = some i →
      ∃ h : i < ts.length, isXZ (ts.get ⟨i, h⟩) = true ∧
        ∀ j (hj : j < ts.length), i < j → isXZ (ts.get ⟨j, hj⟩) = false := by
  intro ts
  induction ts with
  | nil => intro i h; simp [lastXZIdx] at h
  | cons t ts ih =>
    intro i hsome
    cases hsub : lastXZIdx ts with
    | some j =>
      rw [lastXZIdx, hsub] at hsome
      simp only [Option.some.injEq] at hsome
      subst hsome
      obtain ⟨hj, hXZ, hub⟩ := ih j hsub
      refine ⟨Nat.succ_lt_succ hj, hXZ, ?_⟩
      intro k hk hgt
      cases k with
      | zero => exact absurd hgt (Nat.not_lt_zero _).elim
      | succ k => exact hub k (Nat.lt_of_succ_lt_succ hk) (Nat.lt_of_succ_lt_succ hgt)
    | none =>
      rw [lastXZIdx, hsub] at hsome
      cases ht : isXZ t with
      | true =>
        rw [ht] at hsome
        simp only [if_true, reduceIte, Option.some.injEq] at hsome
        subst hsome
        refine ⟨Nat.succ_pos _, ht, ?_⟩
        intro k hk hgt
        cases k with
        | zero => exact absurd hgt (by omega)
        | succ k => exact lastXZIdx_none ts hsub k (Nat.lt_of_succ_lt_succ hk)
      | false => rw [ht] at hsome; simp at hsome

/-- C3: `findLastXZ` returns the index of the last Command token with the
primary mark `^` and name `XZ` (tokens with the secondary mark `~` are not
counted even when named `XZ`), and returns the sequence length when no such
token exists (hence `0` for the empty sequence): the result is at most the
length; when it is below the length it points at a `^XZ` command; every
`^XZ` command lies at or below it; and when it equals the length there is
no `^XZ` command at all. -/
theorem spec_C3_findLastXZ (ts : List Token) :
    findLastXZ ts ≤ ts.length ∧
    (∀ h : findLastXZ ts < ts.length, isXZ (ts.get ⟨findLastXZ ts, h⟩) = true) ∧
    (∀ j (hj : j < ts.length), isXZ (ts.get ⟨j, hj⟩) = true → j ≤ findLastXZ ts) ∧
    (findLastXZ ts = ts.length → ∀ j (hj : j < ts.length), isXZ (ts.get ⟨j, hj⟩) = false) := by
  cases hidx : lastXZIdx ts with
  | none =>
    have hval : findLastXZ ts = ts.length := by rw [findLastXZ, hidx]; rfl
    refine ⟨le_of_eq hval, ?_, ?_, ?_⟩
    · intro h; exact absurd h (by omega)
    · intro j hj hXZ
      exact absurd hXZ (by rw [lastXZIdx_none ts hidx j hj]; simp)
    · intro _ j hj
      exact lastXZIdx_none ts hidx j hj
  | some i =>
    obtain ⟨hlt, hXZ, hub⟩ := lastXZIdx_some ts i hidx
    have hval : findLastXZ ts = i := by rw [findLastXZ, hidx]; rfl
    refine ⟨by omega, ?_, ?_, ?_⟩
    · intro h
      have : (⟨findLastXZ ts, h⟩ : Fin ts.length) = ⟨i, hlt⟩ := by
        simp [hval]
      rw [this]
      exact hXZ
    · intro j hj hXZj
      by_contra hgt
      rw [hval] at hgt
      have := hub j hj (by omega)
      rw [hXZj] at this
      simp at this
    · intro heq
      exact absurd (hval ▸ heq) (by omega)

/-- Witness for C3 at the test input with a `~XZ` to be ignored: the `^XZ`
at index 2 forces the insertion point to be at least 2. -/
theorem spec_C3_witness :
    2 ≤ findLastXZ [Token.Cmd '~' ['X', 'Z'] [], Token.Cmd '^' ['X', 'A'] [],
      Token.Cmd '^' ['X', 'Z'] []] :=
  (spec_C3_findLastXZ _).2.2.1 2 (by decide) (by decide)

/-! ### C2: splice and the terminal marker -/

theorem lastXZIdx_concat_xz (init : List Token) (t : Token) (ht : isXZ t = true) :
    lastXZIdx (init ++ [t]) = some init.length := by
  induction init with
  | nil => simp [lastXZIdx, ht]
  | cons a as ih => rw [List.cons_append, lastXZIdx, ih]; simp

theorem findLastXZ_concat_xz (init : List Token) (t : Token) (ht : isXZ t = true) :
    findLastXZ (init ++ [t]) = init.length := by
  rw [findLastXZ, lastXZIdx_concat_xz init t ht]
  rfl

/-- C2 counterexample: a document whose `^XZ` command is not its last token.
`splice` inserts before the `^XZ`, so the result's last token is still the
trailing RawText token, not the end-of-format command — refuting the claim
that after `splice(doc, frag)` the end-of-format command is the last token
of the result whenever the document contains one. -/
theorem spec_C2_counterexample :
    [Token.Cmd '^' ['X', 'Z'] [], Token.Raw ['x']].any isXZ = true ∧
    splice [Token.Cmd '^' ['X', 'Z'] [], Token.Raw ['x']] [Token.Raw ['y']] =
      [Token.Raw ['y'], Token.Cmd '^' ['X', 'Z'] [], Token.Raw ['x']] ∧
    ((splice [Token.Cmd '^' ['X', 'Z'] [], Token.Raw ['x']] [Token.Raw ['y']]).getLast? =
      some (Token.Raw ['x']) ∧ isXZ (Token.Raw ['x']) = false) := by
  refine ⟨by decide, by decide, by decide, by decide⟩

/-- C2 (amended): when the end-of-format command is the last token of the
document — as in every document built by the fluent API — `splice` inserts
the fragment immediately before it, so it remains the last token of the
result. -/
theorem spec_C2_spliceTerminal (frag init : List Token) (xz : Token)
    (hxz : isXZ xz = true) :
    splice (init ++ [xz]) frag = init ++ frag ++ [xz] := by
  rw [splice]
  simp only [findLastXZ_concat_xz init xz hxz]
  rw [List.take_left, List.drop_left]

/-- Witness for C2 (amended) on a minimal `^XA…^XZ` document. -/
theorem spec_C2_witness :
    splice ([Token.Cmd '^' ['X', 'A'] []] ++ [Token.Cmd '^' ['X', 'Z'] []]) [Token.Raw ['t']] =
      [Token.Cmd '^' ['X', 'A'] []] ++ [Token.Raw ['t']] ++ [Token.Cmd '^' ['X', 'Z'] []] :=
  spec_C2_spliceTerminal [Token.Raw ['t']] [Token.Cmd '^' ['X', 'A'] []]
    (Token.Cmd '^' ['X', 'Z'] []) (by decide)

/-! ### C6: wrap-if-needed -/

-- The wrapper really wraps a plain command block (cf. the PrinterConfig tests).
example :
    wrapPrinterConfigTokensInFormat [Token.Cmd '^' ['M', 'M'] ['T']] =
      [Token.Cmd '^' ['X', 'A'] [], Token.Cmd '^' ['M', 'M'] ['T'],
        Token.Cmd '^' ['X', 'Z'] []] := by decide

/-- C6 counterexample: the wrap is not idempotent on every token sequence.
On `[FD "x"]` the emitted text `^FDx` has an unterminated field-data block,
so the first wrap's trailing `^XZ` is swallowed into the FieldData token and
the result is not wrapped; wrapping again changes it. -/
theorem spec_C6_counterexample :
    wrapPrinterConfigTokensInFormat (wrapPrinterConfigTokensInFormat [Token.FD ['x']]) ≠
      wrapPrinterConfigTokensInFormat [Token.FD ['x']] := by decide

/-- C6 (amended): the wrap returns already-wrapped input unchanged (in
particular when the first token is the start-of-format command and the last
the end-of-format command), and is therefore idempotent whenever its first
application produces a wrapped sequence — which holds for every
printer-configuration command block the library builds, but not for
sequences whose emission contains an unterminated field-data block. -/
theorem spec_C6_wrapIdempotent :
    (∀ t : List Token, alreadyWrapped t = true → wrapPrinterConfigTokensInFormat t = t) ∧
    (∀ t : List Token, alreadyWrapped (wrapPrinterConfigTokensInFormat t) = true →
      wrapPrinterConfigTokensInFormat (wrapPrinterConfigTokensInFormat t) =
        wrapPrinterConfigTokensInFormat t) := by
  have hbase : ∀ t : List Token, alreadyWrapped t = true →
      wrapPrinterConfigTokensInFormat t = t := by
    intro t ht
    rw [wrapPrinterConfigTokensInFormat]
    by_cases hnil : t = []
    · rw [if_pos hnil]
    · rw [if_neg hnil, if_pos ht]
  exact ⟨hbase, fun t ht => hbase _ ht⟩

/-- Witness for C6 (amended) on a wrapped two-token sequence. -/
theorem spec_C6_witness :
    wrapPrinterConfigTokensInFormat
        [Token.Cmd '^' ['X', 'A'] [], Token.Cmd '^' ['X', 'Z'] []] =
      [Token.Cmd '^' ['X', 'A'] [], Token.Cmd '^' ['X', 'Z'] []] :=
  spec_C6_wrapIdempotent.1 _ (by decide)

/-! ### C8: the emitter's defensive default case -/

/-- On known variants the open emitter agrees with the closed one. -/
theorem emitJSTok_toJS (t : Token) : emitJSTok (Token.toJS t) = emitTok t := by
  cases t <;> rfl

/-- C8: the emitter is total over token shapes: a token whose tag matches
none of the five known variants contributes the empty string (and the
emission of such a token never fails, being a total function). -/
theorem spec_C8_emitterTotal (t : JSToken)
    (h : t.k ∉ ["Cmd".toList, "FD".toList, "FS".toList, "Bytes".toList, "Raw".toList]) :
    emitJSTok t = [] ∧ emitJS [t] = [] := by
  simp only [List.mem_cons, List.not_mem_nil, or_false, not_or] at h
  obtain ⟨h1, h2, h3, h4, h5⟩ := h
  have he : emitJSTok t = [] := by
    rw [emitJSTok, if_neg h1, if_neg h2, if_neg h3, if_neg h4, if_neg h5]
  refine ⟨he, ?_⟩
  rw [emitJS, he]
  rfl

/-- Witness for C8 on the test suite's `{k: 'InvalidType', data: 'test'}`. -/
theorem spec_C8_witness :
    emitJSTok ⟨"InvalidType".toList, ' ', [], [], "test".toList, [], []⟩ = [] ∧
    emitJS [⟨"InvalidType".toList, ' ', [], [], "test".toList, [], []⟩] = [] :=
  spec_C8_emitterTotal _ (by decide)

/-! ### C10: caret escaping in text fields -/

-- The caret-escaping test from the repository's suite: a caret in user text
-- is doubled in the emitted ZPL.
example :
    emit (labelText [Token.Cmd '^' ['X', 'A'] [], Token.Cmd '^' ['X', 'Z'] []]
        50 100 'A' 'N' 28 28 "Text with ^caret".toList) =
      "^XA^FO50,100^AAN,28,28^FDText with ^^caret^FS^XZ".toList := by decide

/-- C10: `Label.text` escapes the payload before tokenizing by replacing
every `^` with `^^` (first conjunct: `escFD` doubles exactly the carets),
and the emitted ZPL contains the fragment verbatim, whose `^FD` payload is
the escaped text followed by `^FS` (second conjunct). -/
theorem spec_C10_textEscapes (doc : List Token) (x y : Nat) (fam rot : Char)
    (h w : Nat) (s : List Char) :
    escFD s = s.flatMap (fun c => if c = '^' then ['^', '^'] else [c]) ∧
    emit (labelText doc x y fam rot h w s) =
      emit (doc.take (findLastXZ doc))
        ++ textChunk x y fam rot h w s
        ++ emit (doc.drop (findLastXZ doc)) := by
  constructor
  · induction s with
    | nil => rfl
    | cons c cs ih =>
      by_cases hc : c = '^' <;> simp [escFD, hc, ih]
  · rw [labelText]
    simp only [splice]
    rw [emit_append, emit_append, tokenizeZPL, emit_tokGo _ _ (le_refl _)]
